import Mathlib

/-!
Verification development for marian's `NCCLCommunicator`
(training/communicator_nccl.h): a shallow embedding of its sharding
arithmetic, collective-call semantics, parallel fan-out, checkpoint
state scatter/gather, precision selection, and signal-mask guard,
together with theorems about them.

Buffers of numeric elements are modelled as `List Int` (exact
arithmetic standing in for the tensor element values), byte buffers as
`List Nat`, and the fatal `ABORT_IF` path of `shardSize()` as an
`Option` result.
-/

namespace Marian

/-- Configuration of an `NCCLCommunicator`: `numDevices` local GPU devices
per process (`graphs_.size()` = `devices_.size()`), and `mpi`, which is
`some numProcs` when an MPI wrapper is present (`mpi_ != nullptr`, with
`numProcs = mpi_->numMPIProcesses()`) and `none` otherwise. -/
structure Config where
  numDevices : Nat
  mpi : Option Nat

/-- Embeds `myNcclRank(localDeviceIndex)`: with MPI, the global rank is
`mpi_->myMPIRank() * devices_.size() + localDeviceIndex`; without MPI it
is the local device index. `mpiRank` is the calling process's MPI rank. -/
def Config.myNcclRank (c : Config) (mpiRank localDeviceIndex : Nat) : Nat :=
  match c.mpi with
  | some _ => mpiRank * c.numDevices + localDeviceIndex
  | none => localDeviceIndex

/-- Embeds `numNcclRanks()`: total number of devices across all MPI
processes, `mpi_->numMPIProcesses() * devices_.size()` with MPI, else
`devices_.size()`. -/
def Config.numNcclRanks (c : Config) : Nat :=
  match c.mpi with
  | some p => p * c.numDevices
  | none => c.numDevices

/-- Ceiling division `(a + b - 1) / b`, the expression used by
`shardSize()` and by `scatterState()`. -/
def ceilDiv (a b : Nat) : Nat := (a + b - 1) / b

/-- Embeds `shardSize()`: computes `(dataSize + numShards - 1) / numShards`
and aborts (`ABORT_IF`, modeled as `none`) unless
`size * numShards == dataSize`; otherwise returns the size. -/
def shardSize (dataSize numShards : Nat) : Option Nat :=
  let size := (dataSize + numShards - 1) / numShards
  if size * numShards = dataSize then some size else none

/-- Embeds `ncclRankShardRange(rank)`: `begin = rank * size`,
`end = min(begin + size, dataSize)` (clips the last shard). `none` when
`shardSize()` aborts. -/
def ncclRankShardRange (dataSize numShards rank : Nat) : Option (Nat × Nat) :=
  (shardSize dataSize numShards).map fun size =>
    (rank * size, min (rank * size + size) dataSize)

/-- Embeds `localShardRange(localDeviceIndex)`:
`ncclRankShardRange(myNcclRank(localDeviceIndex))`. -/
def localShardRange (c : Config) (mpiRank localDeviceIndex dataSize : Nat) :
    Option (Nat × Nat) :=
  ncclRankShardRange dataSize c.numNcclRanks (c.myNcclRank mpiRank localDeviceIndex)

/-- Index set of a rank's shard, as computed by `ncclRankShardRange`. -/
def shardIco (dataSize numShards rank : Nat) : Finset Nat :=
  match ncclRankShardRange dataSize numShards rank with
  | some (b, e) => Finset.Ico b e
  | none => ∅

/-- Embeds the shard-range computation inside `scatterState(data, setFn)`:
its own `shardSize = (dataSize + numShards - 1) / numShards` (computed
without any divisibility check), `begin = ncclRank * shardSize`,
`end = min(begin + shardSize, dataSize)`. -/
def scatterStateRange (dataSize numShards ncclRank : Nat) : Nat × Nat :=
  let shardSize := (dataSize + numShards - 1) / numShards
  (ncclRank * shardSize, min (ncclRank * shardSize + shardSize) dataSize)

/-- Index set of the byte range `scatterState` hands to the setter for one
global rank. -/
def scatterStateIco (dataSize numShards ncclRank : Nat) : Finset Nat :=
  Finset.Ico (scatterStateRange dataSize numShards ncclRank).1
    (scatterStateRange dataSize numShards ncclRank).2

/-- The slice of the byte buffer `data` that `scatterState` passes to the
setter for the device with the given global rank: the bytes of
`[begin, end)` as computed by `scatterStateRange`. -/
def scatterStateSlice (data : List Nat) (numShards ncclRank : Nat) : List Nat :=
  let be := scatterStateRange data.length numShards ncclRank
  (data.drop be.1).take (be.2 - be.1)

/-- Embeds the concatenation performed by `gatherState(getFn)`: the local
result is `getFn(0)` followed by `localData.append(getFn(i))` for the
remaining local devices (requiring at least one device, as the code
does); with MPI, each process's local concatenation is broadcast and
appended in ascending MPI-rank order, so every process ends with the
same full concatenation, which this function returns; without MPI the
local concatenation is the result. `getFn p d` is process `p`'s getter
applied to its local device `d`. -/
def gatherState (c : Config) (getFn : Nat → Nat → List Nat) : List Nat :=
  match c.mpi with
  | none => ((List.range c.numDevices).map (getFn 0)).flatten
  | some P => ((List.range P).map fun p =>
      ((List.range c.numDevices).map (getFn p)).flatten).flatten

/-- Write `sub` into `buf` starting at position `pos`, modelling a write
into the view `subtensor(pos, sub.length)` of `buf`. -/
def writeSub (buf : List Int) (pos : Nat) (sub : List Int) : List Int :=
  buf.take pos ++ sub ++ buf.drop (pos + sub.length)

/-- Semantics of `ncclReduceScatter(sendbuf, recvbuf, count, ..., ncclSum,
...)` for the receiving device of global rank `rank`: element `j < count`
of the received shard is the sum over all ranks `k` of rank `k`'s send
buffer at index `rank * count + j`. -/
def reduceScatterSum (send : Nat → List Int) (n count rank : Nat) : List Int :=
  (List.range count).map fun j =>
    ∑ k ∈ Finset.range n, (send k).getD (rank * count + j) 0

/-- The first reset of the `resetGrads` lambda:
`if (begin > 0) grads->subtensor(0, begin)->set(0.f);`. -/
def resetBelow (b : Nat) (buf : List Int) : List Int :=
  if 0 < b then writeSub buf 0 (List.replicate b 0) else buf

/-- The second reset of the `resetGrads` lambda:
`if (end < size) grads->subtensor(end, size - end)->set(0.f);` with
`size = grads->size()`, the buffer's own length. -/
def resetAbove (e : Nat) (buf : List Int) : List Int :=
  if e < buf.length then writeSub buf e (List.replicate (buf.length - e) 0) else buf

/-- Embeds `scatterReduceAndResetGrads()` for the device with global rank
`rank`: reduce-scatter of the full gradient buffers of all `n` ranks
(send buffer `grads->data()`, count `bufsize = shardSize()`) into this
device's shard sub-range `recvbuf = grads->subtensor(begin, end-begin)`
of its own gradient buffer (the source's `ABORT_IF` on the subtensor
size never fires, since `end - begin = shardSize()` whenever
`shardSize()` returns), followed by the `resetGrads` lambda zeroing
`[0, begin)` and `[end, size)`. `none` when `shardSize()` aborts. -/
def scatterReduceAndResetGrads (grads : Nat → List Int) (n D rank : Nat) :
    Option (List Int) :=
  (shardSize D n).map fun s =>
    resetAbove (min (rank * s + s) D)
      (resetBelow (rank * s)
        (writeSub (grads rank) (rank * s) (reduceScatterSum grads n s rank)))

/-- Semantics of `ncclAllGather(sendbuf, recvbuf, count, ...)` for a
receiving device whose receive buffer starts as `recv0`: for each rank
`k`, rank `k`'s send buffer (the `count` elements of its `vals` buffer
starting at `k * count`, i.e. its shard) is written into the receive
buffer at offset `k * count`. -/
def allGatherWrite (vals : Nat → List Int) (n count : Nat) (recv0 : List Int) :
    List Int :=
  (List.range n).foldl
    (fun buf k => writeSub buf (k * count) (((vals k).drop (k * count)).take count))
    recv0

/-- Embeds `allGatherParams()` for the device with global rank `rank`: the
device sends its own shard `vals->subtensor(begin, end-begin)` and
receives every rank's shard into its full `vals` buffer
(`recvbuf = vals->data()`). `none` when `shardSize()` aborts. -/
def allGatherParams (vals : Nat → List Int) (n D rank : Nat) : Option (List Int) :=
  (shardSize D n).map fun s => allGatherWrite vals n s (vals rank)

/-- Embeds `foreachAcc(func, acc, init, parallel)`: first
`parallel &= graphs_.size() > 1`; in the parallel branch each device's
result is computed through the thread pool and the futures are folded
with `acc` in ascending device-index order after all are enqueued; in the
sequential branch each result is folded immediately in ascending
device-index order. `rangeOf i` models the `localShardRange(i)` pair
passed to `func`. -/
def foreachAcc {α : Type} (numDevices : Nat) (rangeOf : Nat → Nat × Nat)
    (func : Nat → Nat → Nat → α) (acc : α → α → α) (initVal : α)
    (parallel : Bool) : α :=
  let par := parallel && decide (1 < numDevices)
  if par then
    ((List.range numDevices).map fun i => func i (rangeOf i).1 (rangeOf i).2).foldl
      acc initVal
  else
    (List.range numDevices).foldl
      (fun r i => acc r (func i (rangeOf i).1 (rangeOf i).2)) initVal

/-- Embeds the boolean-returning `foreach` overload:
`AccFunc<bool> allTrue = [](bool& x, bool y) { x = x && y; };` folded by
`foreachAcc(func, allTrue, true, parallel)`. -/
def foreachBool (numDevices : Nat) (rangeOf : Nat → Nat × Nat)
    (func : Nat → Nat → Nat → Bool) (parallel : Bool) : Bool :=
  foreachAcc numDevices rangeOf func (fun x y => x && y) true parallel

/-- Numeric-type tag of a marian tensor, restricted to the variants
relevant to precision selection. Modelled from the spec: the enum `Type`
of common/types.h is not among the sources; the spec only requires that
precisions other than the two collective-supported ones exist, which
`float64` represents. The selection logic below is fully from the
source. -/
inductive TensorNumType where
  | float32
  | float16
  | float64
deriving DecidableEq

/-- The NCCL numeric element type chosen for a collective call. -/
inductive NcclFloatType where
  | ncclFloat32
  | ncclFloat16
deriving DecidableEq

/-- Embeds the element-type selection of `scatterReduceAndResetGrads()`
and the identical code in `allGatherParams()`:
`ncclDataType_t ncclFloatType = ncclFloat32; if(type == Type::float16)
ncclFloatType = ncclFloat16;` — a default of `ncclFloat32` switched to
`ncclFloat16` only for `float16`; no other precision is examined and no
error path exists. -/
def selectNcclFloatType (t : TensorNumType) : NcclFloatType :=
  if t = TensorNumType.float16 then NcclFloatType.ncclFloat16
  else NcclFloatType.ncclFloat32

/-- The `how` argument of `pthread_sigmask` / `sigprocmask`. -/
inductive SigHow where
  | sigBlock
  | sigUnblock
  | sigSetmask
deriving DecidableEq

/-- POSIX semantics of `pthread_sigmask(how, newSet, oldSet)` and
`sigprocmask`: given the current blocked-signal mask `cur`, returns the
updated mask together with the previous mask (stored through `oldSet`
when non-null). `sigBlock` (SIG_BLOCK) adds `newSet` to the mask (set
union), `sigUnblock` removes it, `sigSetmask` replaces the mask. -/
def sigMaskApply (how : SigHow) (newSet cur : Finset Nat) : Finset Nat × Finset Nat :=
  match how with
  | SigHow.sigBlock => (cur ∪ newSet, cur)
  | SigHow.sigUnblock => (cur \ newSet, cur)
  | SigHow.sigSetmask => (newSet, cur)

/-- Embeds the `BlockSignal` constructor running on a thread/process whose
blocked mask is `cur`: builds `newSigSet = {signal}` (`sigemptyset` then
`sigaddset`) and calls the mask function with `SIG_BLOCK`, saving the
previous mask into `oldSigSet_`. Returns (mask in effect inside the
scope, saved `oldSigSet_`). -/
def blockSignalConstruct (signal : Nat) (cur : Finset Nat) : Finset Nat × Finset Nat :=
  sigMaskApply SigHow.sigBlock {signal} cur

/-- Embeds the `BlockSignal` destructor: calls the mask function with
`SIG_BLOCK` and the saved `oldSigSet_` (commented in the source as
"restore old signal mask"), yielding the mask in effect after the scope
ends. -/
def blockSignalDestruct (saved cur : Finset Nat) : Finset Nat :=
  (sigMaskApply SigHow.sigBlock saved cur).1

/-- The blocked-signal mask after a complete `BlockSignal` scope
(constructor, guarded region, destructor) entered with mask `cur`. -/
def blockSignalScope (signal : Nat) (cur : Finset Nat) : Finset Nat :=
  let cs := blockSignalConstruct signal cur
  blockSignalDestruct cs.2 cs.1

/-! Helper lemmas. -/

/-- A valid local device of a valid process maps to a global rank below
`numNcclRanks()`. -/
theorem Config.myNcclRank_lt (c : Config) (mpiRank localDeviceIndex : Nat)
    (hi : localDeviceIndex < c.numDevices)
    (hp : ∀ P, c.mpi = some P → mpiRank < P) :
    c.myNcclRank mpiRank localDeviceIndex < c.numNcclRanks := by
  unfold Config.myNcclRank Config.numNcclRanks
  cases hm : c.mpi with
  | none => exact hi
  | some P =>
    have hP := hp P hm
    calc mpiRank * c.numDevices + localDeviceIndex
        < mpiRank * c.numDevices + c.numDevices := by omega
      _ = (mpiRank + 1) * c.numDevices := by ring
      _ ≤ P * c.numDevices := Nat.mul_le_mul_right _ hP

/-- For positive `b`, `b * ceilDiv a b` is at least `a`. -/
theorem le_mul_ceilDiv (a b : Nat) (hb : 0 < b) : a ≤ b * ceilDiv a b := by
  unfold ceilDiv
  rcases a with _ | d
  · simp
  · have h1 : d + 1 + b - 1 = d + b := by omega
    rw [h1, Nat.add_div_right d hb, Nat.mul_add, Nat.mul_one]
    have h2 := Nat.div_add_mod d b
    have h3 := Nat.mod_lt d hb
    omega

/-- Under divisibility, ceiling division agrees with exact division. -/
theorem ceilDiv_eq_div_of_dvd (a b : Nat) (hb : 0 < b) (hd : b ∣ a) :
    ceilDiv a b = a / b := by
  obtain ⟨q, rfl⟩ := hd
  unfold ceilDiv
  have h1 : b * q + b - 1 = b - 1 + b * q := by omega
  rw [h1, Nat.add_mul_div_left _ _ hb, Nat.div_eq_of_lt (by omega),
    Nat.mul_div_cancel_left _ hb]
  omega

/-- When `numShards` divides `dataSize`, `shardSize` succeeds and returns
the ceiling quotient (which equals the exact quotient). -/
theorem shardSize_of_dvd (dataSize numShards : Nat) (hn : 0 < numShards)
    (hd : numShards ∣ dataSize) :
    shardSize dataSize numShards = some (ceilDiv dataSize numShards) := by
  unfold shardSize
  have h1 : (dataSize + numShards - 1) / numShards = ceilDiv dataSize numShards := rfl
  rw [h1, ceilDiv_eq_div_of_dvd _ _ hn hd, if_pos (Nat.div_mul_cancel hd)]

/-- When `shardSize` succeeds, the returned size is the ceiling quotient
and multiplies with the shard count to exactly the data size. -/
theorem shardSize_eq_some (dataSize numShards s : Nat)
    (h : shardSize dataSize numShards = some s) :
    s = ceilDiv dataSize numShards ∧ s * numShards = dataSize := by
  unfold shardSize at h
  by_cases hc : (dataSize + numShards - 1) / numShards * numShards = dataSize
  · rw [if_pos hc] at h
    have hq := Option.some_inj.mp h
    subst hq
    exact ⟨rfl, hc⟩
  · rw [if_neg hc] at h
    exact absurd h (by simp)

/-- Dropping at `b` and taking up to the clipped bound
`min (b + s) l.length` is the same as taking `s` elements. -/
theorem drop_take_min {α : Type} (l : List α) (b s : Nat) :
    (l.drop b).take (min (b + s) l.length - b) = (l.drop b).take s := by
  rcases Nat.le_total (b + s) l.length with h | h
  · rw [Nat.min_eq_left h]
    congr 1
    omega
  · rw [Nat.min_eq_right (by omega)]
    have hlen : (l.drop b).length = l.length - b := List.length_drop b l
    rw [List.take_of_length_le (by omega), List.take_of_length_le (by omega)]

/-- Concatenating the consecutive `s`-sized chunks of `l` recovers a
prefix of `l`. -/
theorem flatten_chunks {α : Type} (l : List α) (s : Nat) (n : Nat) :
    ((List.range n).map fun r => (l.drop (r * s)).take s).flatten = l.take (n * s) := by
  induction n with
  | zero => simp
  | succ m ih =>
    rw [List.range_succ, List.map_append, List.flatten_append, ih]
    simp only [List.map_cons, List.map_nil, List.flatten_cons, List.flatten_nil,
      List.append_nil]
    rw [Nat.succ_mul, List.take_add]

/-- The slice `scatterState` hands to a rank's setter, written with an
unclipped take. -/
theorem scatterStateSlice_eq (data : List Nat) (n : Nat) (r : Nat) :
    scatterStateSlice data n r =
      (data.drop (r * ceilDiv data.length n)).take (ceilDiv data.length n) := by
  simp only [scatterStateSlice, scatterStateRange]
  exact drop_take_min data (r * ((data.length + n - 1) / n)) ((data.length + n - 1) / n)

/-- Flattening a `P × L` grid of lists row by row equals flattening the
corresponding flat enumeration of `P * L` lists. -/
theorem flatten_grid {α : Type} (L : Nat) (f : Nat → List α) (P : Nat) :
    ((List.range P).map fun p =>
      ((List.range L).map fun d => f (p * L + d)).flatten).flatten
      = ((List.range (P * L)).map f).flatten := by
  induction P with
  | zero => simp
  | succ m ih =>
    rw [List.range_succ, List.map_append, List.flatten_append, ih]
    have h2 : (m + 1) * L = m * L + L := Nat.succ_mul m L
    rw [h2, List.range_add, List.map_append, List.flatten_append]
    simp only [List.map_cons, List.map_nil, List.flatten_cons, List.flatten_nil,
      List.append_nil, List.map_map]
    rfl

/-- Concatenating, over all global ranks in order, the slices that
`scatterState` distributes recovers the original buffer. -/
theorem flatten_scatterStateSlice (data : List Nat) (n : Nat) (hn : 0 < n) :
    ((List.range n).map fun r => scatterStateSlice data n r).flatten = data := by
  have hs := scatterStateSlice_eq data n
  simp only [hs]
  rw [flatten_chunks]
  exact List.take_of_length_le (le_mul_ceilDiv data.length n hn)

/-- Both branches of `foreachAcc` compute the same left fold over the
devices in ascending index order: the parallel branch folds the futures'
values in device order after the map, the sequential branch folds
inline. -/
theorem foreachAcc_eq_foldl {α : Type} (numDevices : Nat) (rangeOf : Nat → Nat × Nat)
    (func : Nat → Nat → Nat → α) (acc : α → α → α) (initVal : α) (parallel : Bool) :
    foreachAcc numDevices rangeOf func acc initVal parallel =
      (List.range numDevices).foldl
        (fun r i => acc r (func i (rangeOf i).1 (rangeOf i).2)) initVal := by
  simp only [foreachAcc]
  cases hpar : parallel && decide (1 < numDevices) with
  | false => rw [if_neg (by simp [hpar])]
  | true =>
    rw [if_pos (by simp [hpar])]
    exact List.foldl_map _ _ _ _

/-- Folding a boolean list with logical AND from an arbitrary start value
computes the start value AND the conjunction of the list. -/
theorem foldl_and {α : Type} (l : List α) (f : α → Bool) (b : Bool) :
    l.foldl (fun x y => x && f y) b = (b && l.all f) := by
  induction l generalizing b with
  | nil => simp
  | cons a t ih => simp [ih, Bool.and_assoc]

/-- Writing a sub-buffer that fits inside the buffer preserves the
buffer's length. -/
theorem length_writeSub (buf : List Int) (pos : Nat) (sub : List Int)
    (h : pos + sub.length ≤ buf.length) :
    (writeSub buf pos sub).length = buf.length := by
  unfold writeSub
  simp only [List.length_append, List.length_take, List.length_drop]
  omega

/-- Element characterization of `writeSub`: positions inside the written
window read from `sub`, all others read from the original buffer. -/
theorem getD_writeSub (buf : List Int) (pos : Nat) (sub : List Int) (idx : Nat)
    (h : pos + sub.length ≤ buf.length) :
    (writeSub buf pos sub).getD idx 0 =
      if pos ≤ idx ∧ idx < pos + sub.length then sub.getD (idx - pos) 0
      else buf.getD idx 0 := by
  have htake : (buf.take pos).length = pos := by
    rw [List.length_take]
    omega
  unfold writeSub
  rcases Nat.lt_or_ge idx pos with h1 | h1
  · rw [if_neg (by omega), List.getD_eq_getElem?_getD, List.getD_eq_getElem?_getD]
    congr 1
    rw [List.getElem?_append_left (by rw [List.length_append, htake]; omega),
      List.getElem?_append_left (by rw [htake]; exact h1),
      List.getElem?_take, if_pos h1]
  · rcases Nat.lt_or_ge idx (pos + sub.length) with h2 | h2
    · rw [if_pos ⟨h1, h2⟩, List.getD_eq_getElem?_getD, List.getD_eq_getElem?_getD]
      congr 1
      rw [List.getElem?_append_left (by rw [List.length_append, htake]; omega),
        List.getElem?_append_right (by rw [htake]; exact h1), htake]
    · rw [if_neg (by omega), List.getD_eq_getElem?_getD, List.getD_eq_getElem?_getD]
      congr 1
      rw [List.getElem?_append_right (by rw [List.length_append, htake]; omega),
        List.getElem?_drop]
      congr 1
      rw [List.length_append, htake]
      omega

/-- Reading a mapped range list below its bound. -/
theorem getD_map_range (count j : Nat) (f : Nat → Int) (h : j < count) :
    ((List.range count).map f).getD j 0 = f j := by
  rw [List.getD_eq_getElem?_getD, List.getElem?_map]
  simp [List.getElem?_range, h]

/-- Reading a replicate list below its length. -/
theorem getD_replicate (n j : Nat) (x : Int) (h : j < n) :
    (List.replicate n x).getD j 0 = x := by
  rw [List.getD_eq_getElem?_getD]
  simp [List.getElem?_replicate, h]

/-- The reduce-scatter output shard has exactly `count` elements. -/
theorem length_reduceScatterSum (send : Nat → List Int) (n count rank : Nat) :
    (reduceScatterSum send n count rank).length = count := by
  simp [reduceScatterSum]

/-- Zeroing an in-bounds prefix preserves the length. -/
theorem length_resetBelow (b : Nat) (buf : List Int) (h : b ≤ buf.length) :
    (resetBelow b buf).length = buf.length := by
  unfold resetBelow
  by_cases hb : 0 < b
  · rw [if_pos hb, length_writeSub _ _ _ (by simp [List.length_replicate]; omega)]
  · rw [if_neg hb]

/-- Element characterization of `resetBelow`. -/
theorem getD_resetBelow (b : Nat) (buf : List Int) (idx : Nat) (h : b ≤ buf.length) :
    (resetBelow b buf).getD idx 0 = if idx < b then 0 else buf.getD idx 0 := by
  unfold resetBelow
  by_cases hb : 0 < b
  · rw [if_pos hb, getD_writeSub _ _ _ _ (by simp [List.length_replicate]; omega)]
    simp only [List.length_replicate, Nat.zero_add, Nat.zero_le, true_and, Nat.sub_zero]
    by_cases hib : idx < b
    · rw [if_pos hib, if_pos hib, getD_replicate _ _ _ hib]
    · rw [if_neg hib, if_neg hib]
  · rw [if_neg hb, if_neg (by omega)]

/-- Zeroing a suffix preserves the length. -/
theorem length_resetAbove (e : Nat) (buf : List Int) :
    (resetAbove e buf).length = buf.length := by
  unfold resetAbove
  by_cases hb : e < buf.length
  · rw [if_pos hb, length_writeSub _ _ _ (by simp [List.length_replicate]; omega)]
  · rw [if_neg hb]

/-- Element characterization of `resetAbove` at in-bounds positions. -/
theorem getD_resetAbove (e : Nat) (buf : List Int) (idx : Nat)
    (hidx : idx < buf.length) :
    (resetAbove e buf).getD idx 0 = if e ≤ idx then 0 else buf.getD idx 0 := by
  unfold resetAbove
  by_cases hb : e < buf.length
  · rw [if_pos hb, getD_writeSub _ _ _ _ (by simp [List.length_replicate]; omega)]
    simp only [List.length_replicate]
    by_cases hie : e ≤ idx
    · rw [if_pos ⟨hie, by omega⟩, if_pos hie, getD_replicate _ _ _ (by omega)]
    · rw [if_neg (by omega), if_neg hie]
  · rw [if_neg hb, if_neg (by omega)]

/-- Unfolding one step of the all-gather write fold. -/
theorem allGatherWrite_succ (vals : Nat → List Int) (s m : Nat) (recv0 : List Int) :
    allGatherWrite vals (m + 1) s recv0 =
      writeSub (allGatherWrite vals m s recv0) (m * s)
        (((vals m).drop (m * s)).take s) := by
  unfold allGatherWrite
  rw [List.range_succ, List.foldl_append]
  simp only [List.foldl_cons, List.foldl_nil]

/-- The all-gather write fold lays the ranks' shards down in ascending
rank order: the receive buffer becomes the concatenation of all shards
followed by its untouched tail. -/
theorem allGatherWrite_eq (vals : Nat → List Int) (s D : Nat)
    (hlen : ∀ k, (vals k).length = D) :
    ∀ (n : Nat) (recv0 : List Int), n * s ≤ D → n * s ≤ recv0.length →
    allGatherWrite vals n s recv0 =
      ((List.range n).map fun k => ((vals k).drop (k * s)).take s).flatten
        ++ recv0.drop (n * s) := by
  intro n
  induction n with
  | zero =>
    intro recv0 _ _
    simp [allGatherWrite]
  | succ m ih =>
    intro recv0 hD hrec
    have hms : m * s + s = (m + 1) * s := (Nat.succ_mul m s).symm
    have hchunkLen : (((vals m).drop (m * s)).take s).length = s := by
      rw [List.length_take, List.length_drop, hlen]
      omega
    have hFlen : (((List.range m).map fun k =>
        ((vals k).drop (k * s)).take s).flatten).length = m * s := by
      rw [List.length_flatten, List.map_map]
      have hcongr : ∀ k ∈ List.range m,
          (List.length ∘ fun k => ((vals k).drop (k * s)).take s) k
            = (fun _ : Nat => s) k := by
        intro k hk
        have hkm := List.mem_range.mp hk
        simp only [Function.comp_apply]
        rw [List.length_take, List.length_drop, hlen]
        have hle : (k + 1) * s ≤ (m + 1) * s := Nat.mul_le_mul_right _ (by omega)
        have hk1 : k * s + s = (k + 1) * s := (Nat.succ_mul k s).symm
        omega
      rw [List.map_congr_left hcongr, List.map_const', List.length_range,
        List.sum_replicate, smul_eq_mul]
    rw [allGatherWrite_succ, ih recv0 (by omega) (by omega)]
    rw [List.range_succ, List.map_append, List.flatten_append]
    simp only [List.map_cons, List.map_nil, List.flatten_cons, List.flatten_nil,
      List.append_nil]
    unfold writeSub
    rw [List.take_left' hFlen, hchunkLen]
    have hoff : m * s + s = (((List.range m).map fun k =>
        ((vals k).drop (k * s)).take s).flatten).length + s := by rw [hFlen]
    rw [hoff, List.drop_append, List.drop_drop, hms]

/-! Claim theorems. -/

/-- CLAIM C6. For every pure per-device function, every reducer, and every
initial value, `foreachAcc` with `parallel = true` returns the same
accumulated value as `foreachAcc` with `parallel = false`: both modes
fold the per-device results into the accumulator in ascending
device-index order. -/
theorem foreachAcc_parallel_eq_sequential {α : Type} (numDevices : Nat)
    (rangeOf : Nat → Nat × Nat) (func : Nat → Nat → Nat → α) (acc : α → α → α)
    (initVal : α) :
    foreachAcc numDevices rangeOf func acc initVal true =
      foreachAcc numDevices rangeOf func acc initVal false := by
  rw [foreachAcc_eq_foldl, foreachAcc_eq_foldl]

/-- CLAIM C7. The boolean-returning `foreach` overload folds the
per-device boolean results with logical AND from initial value `true`:
it returns `true` exactly when every device's function returns `true`
and `false` exactly when some device's function returns `false`,
regardless of the execution mode; the function is applied once per local
device (once for each index in `List.range numDevices`). -/
theorem foreach_bool_and_spec (numDevices : Nat) (rangeOf : Nat → Nat × Nat)
    (func : Nat → Nat → Nat → Bool) (parallel : Bool) :
    (foreachBool numDevices rangeOf func parallel = true ↔
      ∀ i, i < numDevices → func i (rangeOf i).1 (rangeOf i).2 = true) ∧
    (foreachBool numDevices rangeOf func parallel = false ↔
      ∃ i, i < numDevices ∧ func i (rangeOf i).1 (rangeOf i).2 = false) := by
  have h1 : foreachBool numDevices rangeOf func parallel =
      (List.range numDevices).all fun i => func i (rangeOf i).1 (rangeOf i).2 := by
    unfold foreachBool
    rw [foreachAcc_eq_foldl, foldl_and, Bool.true_and]
  constructor
  · rw [h1, List.all_eq_true]
    constructor
    · intro hall i hi
      exact hall i (List.mem_range.mpr hi)
    · intro hall x hx
      exact hall x (List.mem_range.mp hx)
  · rw [h1]
    constructor
    · intro hfalse
      by_contra hno
      push_neg at hno
      have hall : (List.range numDevices).all
          (fun i => func i (rangeOf i).1 (rangeOf i).2) = true := by
        rw [List.all_eq_true]
        intro x hx
        have hb := hno x (List.mem_range.mp hx)
        revert hb
        cases func x (rangeOf x).1 (rangeOf x).2 <;> simp
      rw [hall] at hfalse
      cases hfalse
    · rintro ⟨i, hi, hf⟩
      have hmem : ¬ ((List.range numDevices).all
          (fun i => func i (rangeOf i).1 (rangeOf i).2) = true) := by
        rw [List.all_eq_true]
        intro hall
        have := hall i (List.mem_range.mpr hi)
        rw [hf] at this
        cases this
      revert hmem
      cases (List.range numDevices).all fun i => func i (rangeOf i).1 (rangeOf i).2 <;>
        simp

/-- CLAIM C3. For every `total` divisible by a positive `numParticipants`:
`shardSize` equals `ceil(total/numParticipants)`; `shardRange(rank)` is
`[rank*shardSize, min((rank+1)*shardSize, total))` for every rank below
`numParticipants`; the shard ranges of distinct ranks are pairwise
disjoint; they cover `[0, total)` exactly; and the shard sizes over all
ranks sum to `total`. -/
theorem shard_partition (total n : Nat) (hn : 0 < n) (hd : n ∣ total) :
    shardSize total n = some (ceilDiv total n) ∧
    (∀ r, r < n → ncclRankShardRange total n r =
      some (r * ceilDiv total n, min ((r + 1) * ceilDiv total n) total)) ∧
    (∀ r1 r2, r1 < n → r2 < n → r1 ≠ r2 →
      Disjoint (shardIco total n r1) (shardIco total n r2)) ∧
    (Finset.range n).biUnion (shardIco total n) = Finset.range total ∧
    ∑ r ∈ Finset.range n, (shardIco total n r).card = total := by
  have hs := shardSize_of_dvd total n hn hd
  set s := ceilDiv total n with hsdef
  have hmul : s * n = total := (shardSize_eq_some total n s hs).2
  have hrange : ∀ r, ncclRankShardRange total n r =
      some (r * s, min (r * s + s) total) := by
    intro r
    unfold ncclRankShardRange
    rw [hs]
    rfl
  have hico : ∀ r, r < n → shardIco total n r = Finset.Ico (r * s) (r * s + s) := by
    intro r hr
    unfold shardIco
    rw [hrange r]
    have hle : r * s + s ≤ total := by
      have h2 : (r + 1) * s ≤ n * s := Nat.mul_le_mul_right _ hr
      calc r * s + s = (r + 1) * s := by ring
        _ ≤ n * s := h2
        _ = total := by rw [Nat.mul_comm]; exact hmul
    simp [Nat.min_eq_left hle]
  have hdisj : ∀ r1 r2, r1 < r2 →
      Disjoint (Finset.Ico (r1 * s) (r1 * s + s)) (Finset.Ico (r2 * s) (r2 * s + s)) := by
    intro r1 r2 hlt
    have hsep : r1 * s + s ≤ r2 * s := by
      calc r1 * s + s = (r1 + 1) * s := by ring
        _ ≤ r2 * s := Nat.mul_le_mul_right _ hlt
    rw [Finset.disjoint_left]
    intro x hx1 hx2
    rw [Finset.mem_Ico] at hx1 hx2
    omega
  refine ⟨hs, ?_, ?_, ?_, ?_⟩
  · intro r hr
    rw [hrange r]
    have h2 : r * s + s = (r + 1) * s := by ring
    rw [h2]
  · intro r1 r2 h1 h2 hne
    rw [hico r1 h1, hico r2 h2]
    rcases Nat.lt_or_ge r1 r2 with hlt | hge
    · exact hdisj r1 r2 hlt
    · exact (hdisj r2 r1 (Nat.lt_of_le_of_ne hge (Ne.symm hne))).symm
  · ext idx
    simp only [Finset.mem_biUnion, Finset.mem_range]
    constructor
    · rintro ⟨r, hr, hmem⟩
      rw [hico r hr, Finset.mem_Ico] at hmem
      have hle : r * s + s ≤ total := by
        calc r * s + s = (r + 1) * s := by ring
          _ ≤ n * s := Nat.mul_le_mul_right _ hr
          _ = total := by rw [Nat.mul_comm]; exact hmul
      omega
    · intro hidx
      have hspos : 0 < s := by
        rcases Nat.eq_zero_or_pos s with hz | hpos
        · rw [hz] at hmul; omega
        · exact hpos
      have hr : idx / s < n := by
        have hlt : idx < s * n := by rw [hmul]; exact hidx
        exact Nat.div_lt_of_lt_mul hlt
      refine ⟨idx / s, hr, ?_⟩
      rw [hico _ hr, Finset.mem_Ico]
      have hdm := Nat.div_add_mod idx s
      have hml := Nat.mod_lt idx hspos
      have hcomm : idx / s * s = s * (idx / s) := Nat.mul_comm _ _
      omega
  · have hcard : ∀ r ∈ Finset.range n, (shardIco total n r).card = s := by
      intro r hr
      rw [Finset.mem_range] at hr
      rw [hico r hr, Nat.card_Ico]
      omega
    rw [Finset.sum_congr rfl hcard, Finset.sum_const, Finset.card_range, smul_eq_mul,
      Nat.mul_comm]
    exact hmul

/-- Witness for CLAIM C3 at `total = 12`, `numParticipants = 3`. -/
theorem shard_partition_witness :
    shardSize 12 3 = some (ceilDiv 12 3) ∧
    (∀ r, r < 3 → ncclRankShardRange 12 3 r =
      some (r * ceilDiv 12 3, min ((r + 1) * ceilDiv 12 3) 12)) ∧
    (∀ r1 r2, r1 < 3 → r2 < 3 → r1 ≠ r2 →
      Disjoint (shardIco 12 3 r1) (shardIco 12 3 r2)) ∧
    (Finset.range 3).biUnion (shardIco 12 3) = Finset.range 12 ∧
    ∑ r ∈ Finset.range 3, (shardIco 12 3 r).card = 12 :=
  shard_partition 12 3 (by decide) (by decide)

/-- CLAIM C4. For every `total` not divisible by a positive
`numParticipants`, the shard-size computation hits the `ABORT_IF`
(fatal configuration error), modeled as `none`. -/
theorem shardSize_uneven_fails (total n : Nat) (hn : 0 < n) (hnd : ¬ n ∣ total) :
    shardSize total n = none := by
  unfold shardSize
  rw [if_neg]
  intro hc
  exact hnd ⟨(total + n - 1) / n, by rw [Nat.mul_comm]; exact hc.symm⟩

/-- Witness for CLAIM C4: `total = 10` with 3 participants fails, while
`total = 12` with 3 participants yields shard size 4 and the ranges
`[0,4)`, `[4,8)`, `[8,12)`. -/
theorem shardSize_uneven_fails_witness :
    shardSize 10 3 = none ∧
    shardSize 12 3 = some 4 ∧
    ncclRankShardRange 12 3 0 = some (0, 4) ∧
    ncclRankShardRange 12 3 1 = some (4, 8) ∧
    ncclRankShardRange 12 3 2 = some (8, 12) :=
  ⟨shardSize_uneven_fails 10 3 (by decide) (by decide), by decide, by decide,
    by decide, by decide⟩

/-- CLAIM C10. `scatterState` computes its own shard size as
`ceil(dataSize/numShards)` with no divisibility check, clipping each
shard's end (but not its begin) to `dataSize`; whenever
`(numShards-1) * ceil(dataSize/numShards) ≤ dataSize`, the byte ranges
passed to the setter across all global ranks are pairwise disjoint,
ascend with global rank, and cover `[0, dataSize)` exactly. -/
theorem scatterState_ranges_partition (D n : Nat) (hn : 0 < n)
    (hclip : (n - 1) * ceilDiv D n ≤ D) :
    (∀ r, scatterStateRange D n r =
      (r * ceilDiv D n, min (r * ceilDiv D n + ceilDiv D n) D)) ∧
    (∀ r1 r2, r1 < r2 →
      (scatterStateRange D n r1).1 ≤ (scatterStateRange D n r2).1 ∧
      (scatterStateRange D n r1).2 ≤ (scatterStateRange D n r2).1) ∧
    (∀ r1 r2, r1 < n → r2 < n → r1 ≠ r2 →
      Disjoint (scatterStateIco D n r1) (scatterStateIco D n r2)) ∧
    (Finset.range n).biUnion (scatterStateIco D n) = Finset.range D := by
  set s := ceilDiv D n with hsdef
  have hrange : ∀ r, scatterStateRange D n r = (r * s, min (r * s + s) D) :=
    fun r => rfl
  have hasc : ∀ r1 r2, r1 < r2 →
      (scatterStateRange D n r1).1 ≤ (scatterStateRange D n r2).1 ∧
      (scatterStateRange D n r1).2 ≤ (scatterStateRange D n r2).1 := by
    intro r1 r2 hlt
    rw [hrange r1, hrange r2]
    have hsep : r1 * s + s ≤ r2 * s := by
      calc r1 * s + s = (r1 + 1) * s := by ring
        _ ≤ r2 * s := Nat.mul_le_mul_right _ hlt
    constructor
    · exact Nat.le_trans (by omega) (le_refl _)
    · exact Nat.le_trans (Nat.min_le_left _ _) hsep
  refine ⟨hrange, hasc, ?_, ?_⟩
  · intro r1 r2 h1 h2 hne
    unfold scatterStateIco
    have hkey : ∀ a b : Nat, a < b →
        Disjoint (Finset.Ico (scatterStateRange D n a).1 (scatterStateRange D n a).2)
          (Finset.Ico (scatterStateRange D n b).1 (scatterStateRange D n b).2) := by
      intro a b hab
      have hd := hasc a b hab
      rw [Finset.disjoint_left]
      intro x hx1 hx2
      rw [Finset.mem_Ico] at hx1 hx2
      omega
    rcases Nat.lt_or_ge r1 r2 with hlt | hge
    · exact hkey r1 r2 hlt
    · exact (hkey r2 r1 (Nat.lt_of_le_of_ne hge (Ne.symm hne))).symm
  · ext idx
    simp only [Finset.mem_biUnion, Finset.mem_range]
    constructor
    · rintro ⟨r, hr, hmem⟩
      unfold scatterStateIco at hmem
      rw [hrange r, Finset.mem_Ico] at hmem
      simp only at hmem
      omega
    · intro hidx
      have hspos : 0 < s := by
        rcases Nat.eq_zero_or_pos s with hz | hpos
        · have hle := le_mul_ceilDiv D n hn
          rw [← hsdef, hz, Nat.mul_zero] at hle
          omega
        · exact hpos
      have hr : idx / s < n := by
        have hle := le_mul_ceilDiv D n hn
        rw [← hsdef] at hle
        have hlt : idx < s * n := by
          calc idx < D := hidx
            _ ≤ n * s := hle
            _ = s * n := Nat.mul_comm n s
        exact Nat.div_lt_of_lt_mul hlt
      refine ⟨idx / s, hr, ?_⟩
      unfold scatterStateIco
      rw [hrange _, Finset.mem_Ico]
      simp only
      have hdm := Nat.div_add_mod idx s
      have hml := Nat.mod_lt idx hspos
      have hcomm : idx / s * s = s * (idx / s) := Nat.mul_comm _ _
      omega

/-- Witness for CLAIM C10 at `dataSize = 10`, `numShards = 4` (uneven
division: shard size 3, ranges `[0,3)`, `[3,6)`, `[6,9)`, `[9,10)`). -/
theorem scatterState_ranges_partition_witness :
    (∀ r, scatterStateRange 10 4 r =
      (r * ceilDiv 10 4, min (r * ceilDiv 10 4 + ceilDiv 10 4) 10)) ∧
    (∀ r1 r2, r1 < r2 →
      (scatterStateRange 10 4 r1).1 ≤ (scatterStateRange 10 4 r2).1 ∧
      (scatterStateRange 10 4 r1).2 ≤ (scatterStateRange 10 4 r2).1) ∧
    (∀ r1 r2, r1 < 4 → r2 < 4 → r1 ≠ r2 →
      Disjoint (scatterStateIco 10 4 r1) (scatterStateIco 10 4 r2)) ∧
    (Finset.range 4).biUnion (scatterStateIco 10 4) = Finset.range 10 :=
  scatterState_ranges_partition 10 4 (by decide) (by decide)

/-- CLAIM C5. For every byte buffer, splitting it with `scatterState` into
per-device slices across all processes and local devices (at least one
of each) and reassembling the slices with `gatherState` yields the
original buffer exactly, on every process (the model's `gatherState`
value is the one every process ends with), in both the single-process
(`mpi = none`) and the multi-process (`mpi = some P`) configuration. -/
theorem scatterState_gatherState_roundtrip (c : Config) (hL : 0 < c.numDevices)
    (hP : ∀ P, c.mpi = some P → 0 < P) (data : List Nat) :
    gatherState c (fun p d =>
      scatterStateSlice data c.numNcclRanks (c.myNcclRank p d)) = data := by
  cases hm : c.mpi with
  | none =>
    simp only [gatherState, Config.myNcclRank, Config.numNcclRanks, hm]
    exact flatten_scatterStateSlice data c.numDevices hL
  | some P =>
    simp only [gatherState, Config.myNcclRank, Config.numNcclRanks, hm]
    rw [flatten_grid c.numDevices
      (fun r => scatterStateSlice data (P * c.numDevices) r) P]
    exact flatten_scatterStateSlice data (P * c.numDevices)
      (Nat.mul_pos (hP P hm) hL)

/-- Witness for CLAIM C5: 2 MPI processes with 2 local devices each
(4 global ranks) and the 5-byte buffer `[1,2,3,4,5]`, whose slices are
`[1,2]`, `[3,4]`, `[5]`, `[]`. -/
theorem scatterState_gatherState_roundtrip_witness :
    gatherState ⟨2, some 2⟩ (fun p d =>
      scatterStateSlice [1, 2, 3, 4, 5] (Config.numNcclRanks ⟨2, some 2⟩)
        (Config.myNcclRank ⟨2, some 2⟩ p d)) = [1, 2, 3, 4, 5] :=
  scatterState_gatherState_roundtrip ⟨2, some 2⟩ (by decide)
    (by intro P hp; injection hp with h2; omega) [1, 2, 3, 4, 5]

/-- CLAIM C1. After `scatterReduceAndResetGrads()` on `numNcclRanks()`
global ranks, for every local device of every process, the device's
gradient buffer holds the element-wise sum over all ranks of the input
gradient buffers at every index inside the device's own shard range
`[b, e)` (as computed by `localShardRange`), and zero at every in-bounds
index outside that range. -/
theorem scatterReduceAndResetGrads_spec (c : Config) (D : Nat)
    (grads : Nat → List Int) (hlen : ∀ k, (grads k).length = D)
    (p i : Nat) (hi : i < c.numDevices) (hp : ∀ P, c.mpi = some P → p < P)
    (b e : Nat) (hbe : localShardRange c p i D = some (b, e))
    (out : List Int)
    (hout : scatterReduceAndResetGrads grads c.numNcclRanks D (c.myNcclRank p i)
      = some out) :
    out.length = D ∧
    ∀ idx, idx < D → out.getD idx 0 =
      (if b ≤ idx ∧ idx < e then
        ∑ k ∈ Finset.range c.numNcclRanks, (grads k).getD idx 0
      else 0) := by
  have hrank : c.myNcclRank p i < c.numNcclRanks := Config.myNcclRank_lt c p i hi hp
  unfold localShardRange ncclRankShardRange at hbe
  unfold scatterReduceAndResetGrads at hout
  cases hsz : shardSize D c.numNcclRanks with
  | none =>
    rw [hsz] at hbe
    simp at hbe
  | some s =>
    rw [hsz] at hbe hout
    simp only [Option.map_some'] at hbe hout
    have hbe2 := Option.some_inj.mp hbe
    rw [Prod.mk.injEq] at hbe2
    obtain ⟨hb, he⟩ := hbe2
    subst hb
    subst he
    have hout2 := Option.some_inj.mp hout
    subst hout2
    have hmul : s * c.numNcclRanks = D :=
      (shardSize_eq_some D c.numNcclRanks s hsz).2
    have hbsle : c.myNcclRank p i * s + s ≤ D := by
      have h2 : (c.myNcclRank p i + 1) * s ≤ c.numNcclRanks * s :=
        Nat.mul_le_mul_right _ hrank
      calc c.myNcclRank p i * s + s = (c.myNcclRank p i + 1) * s := by ring
        _ ≤ c.numNcclRanks * s := h2
        _ = D := by rw [Nat.mul_comm]; exact hmul
    have hemin : min (c.myNcclRank p i * s + s) D = c.myNcclRank p i * s + s :=
      Nat.min_eq_left hbsle
    rw [hemin]
    have hWlen : (writeSub (grads (c.myNcclRank p i)) (c.myNcclRank p i * s)
        (reduceScatterSum grads c.numNcclRanks s (c.myNcclRank p i))).length = D := by
      rw [length_writeSub _ _ _
        (by rw [length_reduceScatterSum, hlen]; exact hbsle), hlen]
    have hBlen : (resetBelow (c.myNcclRank p i * s)
        (writeSub (grads (c.myNcclRank p i)) (c.myNcclRank p i * s)
          (reduceScatterSum grads c.numNcclRanks s (c.myNcclRank p i)))).length
        = D := by
      rw [length_resetBelow _ _ (by rw [hWlen]; omega), hWlen]
    refine ⟨by rw [length_resetAbove, hBlen], ?_⟩
    intro idx hidx
    rw [getD_resetAbove _ _ _ (by rw [hBlen]; exact hidx)]
    rw [getD_resetBelow _ _ _ (by rw [hWlen]; omega)]
    rw [getD_writeSub _ _ _ _
      (by rw [length_reduceScatterSum, hlen]; exact hbsle)]
    rw [length_reduceScatterSum]
    by_cases hc1 : c.myNcclRank p i * s + s ≤ idx
    · rw [if_pos hc1, if_neg (by omega)]
    · rw [if_neg hc1]
      by_cases hc2 : idx < c.myNcclRank p i * s
      · rw [if_pos hc2, if_neg (by omega)]
      · rw [if_neg hc2, if_pos ⟨by omega, by omega⟩, if_pos ⟨by omega, by omega⟩]
        unfold reduceScatterSum
        rw [getD_map_range _ _ _ (by omega)]
        have hix : c.myNcclRank p i * s + (idx - c.myNcclRank p i * s) = idx := by
          omega
        rw [hix]

/-- Witness for CLAIM C1: two local devices, no MPI (2 global ranks),
every rank holding the all-ones gradient vector of length 4; on device 0
(rank 0, shard `[0, 2)`) the result is `[2, 2, 0, 0]`: `N = 2` inside the
shard, `0` outside. -/
theorem scatterReduceAndResetGrads_spec_witness :
    ([2, 2, 0, 0] : List Int).length = 4 ∧
    ∀ idx, idx < 4 → ([2, 2, 0, 0] : List Int).getD idx 0 =
      (if 0 ≤ idx ∧ idx < 2 then
        ∑ k ∈ Finset.range (Config.numNcclRanks ⟨2, none⟩),
          ((fun _ : Nat => ([1, 1, 1, 1] : List Int)) k).getD idx 0
      else 0) :=
  scatterReduceAndResetGrads_spec ⟨2, none⟩ 4 (fun _ => [1, 1, 1, 1])
    (fun _ => rfl) 0 0 (by decide) (fun P hP => by cases hP) 0 2 (by decide)
    [2, 2, 0, 0] (by decide)

/-- CLAIM C2. After `allGatherParams()`, every device's full parameter
buffer equals the concatenation, in ascending global-rank order, of the
parameter shards contributed by all global ranks, and the buffer is
identical on every device (any two valid devices receive equal
buffers). -/
theorem allGatherParams_spec (c : Config) (D : Nat) (vals : Nat → List Int)
    (hlen : ∀ k, (vals k).length = D) (s : Nat)
    (hs : shardSize D c.numNcclRanks = some s)
    (p i p' i' : Nat) (hi : i < c.numDevices) (hp : ∀ P, c.mpi = some P → p < P)
    (hi' : i' < c.numDevices) (hp' : ∀ P, c.mpi = some P → p' < P)
    (out out' : List Int)
    (hout : allGatherParams vals c.numNcclRanks D (c.myNcclRank p i) = some out)
    (hout' : allGatherParams vals c.numNcclRanks D (c.myNcclRank p' i') = some out') :
    out = ((List.range c.numNcclRanks).map fun k =>
      ((vals k).drop (k * s)).take s).flatten ∧
    out = out' := by
  have hmul : s * c.numNcclRanks = D := (shardSize_eq_some _ _ _ hs).2
  have hmul2 : c.numNcclRanks * s = D := by rw [Nat.mul_comm]; exact hmul
  have hflat : ∀ rank : Nat, allGatherParams vals c.numNcclRanks D rank =
      some (((List.range c.numNcclRanks).map fun k =>
        ((vals k).drop (k * s)).take s).flatten) := by
    intro rank
    unfold allGatherParams
    rw [hs]
    simp only [Option.map_some']
    congr 1
    rw [allGatherWrite_eq vals s D hlen c.numNcclRanks (vals rank) (by omega)
      (by rw [hlen]; omega)]
    rw [List.drop_eq_nil_of_le (by rw [hlen]; omega), List.append_nil]
  rw [hflat] at hout hout'
  have h1 := (Option.some_inj.mp hout).symm
  have h2 := (Option.some_inj.mp hout').symm
  exact ⟨h1, by rw [h1, h2]⟩

/-- Witness for CLAIM C2: two local devices, no MPI (2 global ranks),
parameter buffer length 4, rank `k` holding the buffer filled with the
distinct value `k + 1`; both devices end with `[1, 1, 2, 2]`, the
concatenation of the two shards in ascending rank order. -/
theorem allGatherParams_spec_witness :
    ([1, 1, 2, 2] : List Int) = ((List.range 2).map fun (k : Nat) =>
      ((List.replicate 4 ((k : Int) + 1)).drop (k * 2)).take 2).flatten ∧
    ([1, 1, 2, 2] : List Int) = [1, 1, 2, 2] :=
  allGatherParams_spec ⟨2, none⟩ 4 (fun (k : Nat) => List.replicate 4 ((k : Int) + 1))
    (fun k => by simp) 2 (by decide) 0 0 0 1 (by decide)
    (fun P hP => by cases hP) (by decide) (fun P hP => by cases hP)
    [1, 1, 2, 2] [1, 1, 2, 2] (by decide) (by decide)

/-- Witness for CLAIM C6: four devices, per-device function returning the
device index, sum reducer over initial value 0. -/
theorem foreachAcc_parallel_eq_sequential_witness :
    foreachAcc 4 (fun _ => (0, 0)) (fun i _ _ => (i : Int)) (fun a b => a + b) 0 true =
      foreachAcc 4 (fun _ => (0, 0)) (fun i _ _ => (i : Int)) (fun a b => a + b) 0
        false :=
  foreachAcc_parallel_eq_sequential 4 (fun _ => (0, 0)) (fun i _ _ => (i : Int))
    (fun a b => a + b) 0

/-- Witness for CLAIM C7: parallel mode over 4 local devices, each
device's function returning `true`. -/
theorem foreach_bool_and_spec_witness :
    (foreachBool 4 (fun _ => (0, 0)) (fun _ _ _ => true) true = true ↔
      ∀ i, i < 4 → true = true) ∧
    (foreachBool 4 (fun _ => (0, 0)) (fun _ _ _ => true) true = false ↔
      ∃ i, i < 4 ∧ true = false) :=
  foreach_bool_and_spec 4 (fun _ => (0, 0)) (fun _ _ _ => true) true

/-- CLAIM C8 counterexample. The claim says a precision other than the
two supported ones causes a fatal configuration error; but the selection
code checks only for `float16` and otherwise keeps its `ncclFloat32`
default, so a `float64` buffer yields a successful `ncclFloat32`
selection and no error. -/
theorem selectNcclFloatType_float64_defaults :
    selectNcclFloatType TensorNumType.float64 = NcclFloatType.ncclFloat32 ∧
    selectNcclFloatType TensorNumType.float64 ≠ NcclFloatType.ncclFloat16 := by
  decide

/-- CLAIM C8 (amended). For every collective call, the numeric element
type is selected from the buffer's declared precision: `float16` selects
the half-precision collective type, and every other precision —
supported or not — silently selects the single-precision collective
type; no precision triggers an error. -/
theorem selectNcclFloatType_cases (t : TensorNumType) :
    (selectNcclFloatType t = NcclFloatType.ncclFloat16 ↔ t = TensorNumType.float16) ∧
    (selectNcclFloatType t = NcclFloatType.ncclFloat32 ↔ t ≠ TensorNumType.float16) := by
  cases t <;> decide

/-- Witness for the amended CLAIM C8 at the `float16` precision. -/
theorem selectNcclFloatType_cases_witness :
    (selectNcclFloatType TensorNumType.float16 = NcclFloatType.ncclFloat16 ↔
      TensorNumType.float16 = TensorNumType.float16) ∧
    (selectNcclFloatType TensorNumType.float16 = NcclFloatType.ncclFloat32 ↔
      TensorNumType.float16 ≠ TensorNumType.float16) :=
  selectNcclFloatType_cases TensorNumType.float16

/-- CLAIM C9 (code bug). The `BlockSignal` destructor is commented
"restore old signal mask" but calls the mask function with `SIG_BLOCK`,
whose POSIX semantics is set union, not replacement: after a complete
scope the mask is the prior mask united with the blocked signal. With a
prior mask not containing SIGPROF (27) — e.g. the empty mask — the
signal remains blocked after the guard is destroyed, so the previous
mask is not restored; in-scope blocking itself does hold. -/
theorem blockSignal_mask_not_restored :
    (∀ (s : Nat) (m : Finset Nat), blockSignalScope s m = m ∪ {s}) ∧
    blockSignalScope 27 ∅ = {27} ∧
    blockSignalScope 27 ∅ ≠ (∅ : Finset Nat) ∧
    27 ∈ (blockSignalConstruct 27 ∅).1 := by
  refine ⟨?_, by decide, by decide, by decide⟩
  intro s m
  simp only [blockSignalScope, blockSignalConstruct, blockSignalDestruct, sigMaskApply]
  ext x
  simp [Finset.mem_union]
  tauto

end Marian
